import Mathlib

/-!
Verification of the hybrid retrieval and semantic-chunking engine of
`src/voltagent/services/chroma.ts`.

The TypeScript source is shallowly embedded below:
* strings are Lean `String`s (or `List Char` for the chunker, where the
  algorithms walk characters); JS string `length` is modelled as the
  code-point count, which agrees with UTF-16 units on the basic plane;
* JS numbers carrying exact rank arithmetic (RRF scores, distances) are
  modelled as `ℚ`; embedding vectors and cosine similarity are modelled
  over `ℝ` with an explicit `Option` for non-finite results (NaN/∞),
  since Lean's total `x / 0 = 0` convention would silently fabricate the
  zero-guard that the source lacks;
* the Chroma store, the embedding model and the LLM are external
  collaborators and enter as function parameters / explicit inputs;
* JS objects used as string-keyed maps (`merged`, `userContext`) are
  modelled as insertion-ordered association lists.  (`Object.values`
  order for non-integer-like keys is insertion order.)
-/

/-- Metadata values after `sanitizeMetadata`: `string | number | boolean | null`. -/
inductive MetaVal where
  | str (s : String)
  | num (q : ℚ)
  | bool (b : Bool)
  | null
deriving DecidableEq

/-- The `ChromaDoc` record of the source: id, content, metadata, distance,
and the optional `rrf` / `transformerScore` fields added by `hybridRetrieve`. -/
structure ChromaDoc where
  id : String
  content : String
  metadata : List (String × MetaVal)
  distance : ℚ
  rrf : Option ℚ := none
  transformerScore : Option ℝ := none

instance : Inhabited ChromaDoc :=
  ⟨{ id := "", content := "", metadata := [], distance := 0 }⟩

/-- One entry of the full store listing consumed by the keyword stage of
`hybridRetrieve` (`allDocs.documents[i]` may be `null`, hence `Option`). -/
structure StoredEntry where
  content : Option String
  metadata : List (String × MetaVal)
  id : String

/-- Lookup in a JS-object-as-map modelled as an insertion-ordered
association list (`m[k]`, `undefined` becomes `none`). -/
def lookupA {α : Type} : List (String × α) → String → Option α
  | [], _ => none
  | (k, v) :: rest, key => if k = key then some v else lookupA rest key

/-- `m[k] = v` on a JS object: overwrite in place if the key exists
(keeping its position), otherwise append at the end. -/
def setAssoc {α : Type} : List (String × α) → String → α → List (String × α)
  | [], k, v => [(k, v)]
  | (k', v') :: rest, k, v =>
      if k' = k then (k, v) :: rest else (k', v') :: setAssoc rest k v

/-- Update the value under an existing key in place (used for
`merged[doc.id].rrf = ...`); a missing key leaves the map unchanged. -/
def updAssoc {α : Type} : List (String × α) → String → (α → α) → List (String × α)
  | [], _, _ => []
  | (k', v') :: rest, k, f =>
      if k' = k then (k', f v') :: rest else (k', v') :: updAssoc rest k f

/-- Vector-result pass of the RRF merge in `hybridRetrieve`
(`merged[doc.id] = { ...doc, rrf: 1 / rank }; rank++`). -/
def mergeVector : List ChromaDoc → Nat → List (String × ChromaDoc) → List (String × ChromaDoc)
  | [], _, m => m
  | d :: ds, rank, m =>
      mergeVector ds (rank + 1) (setAssoc m d.id { d with rrf := some (1 / (rank : ℚ)) })

/-- Keyword-result pass of the RRF merge in `hybridRetrieve`: a document
already present accumulates `(merged[doc.id].rrf ?? 0) + 1 / rank`,
otherwise it is inserted with `rrf = 1 / rank`. -/
def mergeKeyword : List ChromaDoc → Nat → List (String × ChromaDoc) → List (String × ChromaDoc)
  | [], _, m => m
  | d :: ds, rank, m =>
      if (lookupA m d.id).isSome then
        mergeKeyword ds (rank + 1)
          (updAssoc m d.id (fun c => { c with rrf := some (c.rrf.getD 0 + 1 / (rank : ℚ)) }))
      else
        mergeKeyword ds (rank + 1) (setAssoc m d.id { d with rrf := some (1 / (rank : ℚ)) })

/-- The fused map after both RRF passes (step 3 of `hybridRetrieve`). -/
def fuseMap (vec kw : List ChromaDoc) : List (String × ChromaDoc) :=
  mergeKeyword kw 1 (mergeVector vec 1 [])

/-- `Object.values(merged)` — the fused candidate list. -/
def fusedCandidates (vec kw : List ChromaDoc) : List ChromaDoc :=
  (fuseMap vec kw).map Prod.snd

/-- The `rrf` score the fused map assigns to a document id. -/
def fusedRrf (vec kw : List ChromaDoc) (id : String) : Option ℚ :=
  (lookupA (fuseMap vec kw) id).bind (fun d => d.rrf)

/-- Reciprocal-rank contribution of one result list: `1 / rank` of the
first occurrence of the id (1-based, starting at `rank`), `0` if absent. -/
def contribAux (id : String) : List ChromaDoc → Nat → ℚ
  | [], _ => 0
  | d :: ds, rank => if d.id = id then 1 / (rank : ℚ) else contribAux id ds (rank + 1)

/-- Reciprocal-rank contribution of a result list with ranks starting at 1. -/
def contrib (l : List ChromaDoc) (id : String) : ℚ :=
  contribAux id l 1

/-- Metadata filter predicate of `hybridRetrieve` step 4:
`Object.entries(filter).every(([k, v]) => doc.metadata?.[k] === v)`
(strict equality against the filter's string value). -/
def matchesFilter (filter : List (String × String)) (d : ChromaDoc) : Bool :=
  filter.all fun kv => decide (lookupA d.metadata kv.1 = some (MetaVal.str kv.2))

/-- Step 4 of `hybridRetrieve`: `if (filter) results = results.filter(...)`. -/
def filterStep (filter : Option (List (String × String))) (docs : List ChromaDoc) : List ChromaDoc :=
  match filter with
  | none => docs
  | some f => docs.filter (matchesFilter f)

/-- A minimal concrete document used in witnesses and counterexamples. -/
def docOf (i : String) : ChromaDoc :=
  { id := i, content := i, metadata := [], distance := 0 }

/-! ## Chunker (`semanticChunk`)

The chunker walks characters, so text is modelled as `List Char`.
`text.split(/\n\s*\n/)` is embedded as a character-level scanner with the
regex's leftmost-match/greedy-with-backtracking semantics: a separator
starts at a `'\n'`, extends through following whitespace, and ends at the
last `'\n'` of that whitespace run. -/

/-- JS `\s` (and the `trim` whitespace class) restricted to the
whitespace characters that can realistically appear in text:
space, tab, newline, carriage return, vertical tab, form feed, NBSP. -/
def isJsSpace (c : Char) : Bool :=
  c == ' ' || c == '\t' || c == '\n' || c == '\r' ||
  c == '\x0b' || c == '\x0c' || c == ' '

/-- The `"\n\n"` separator string used by `semanticChunk` when joining. -/
def sep2 : List Char := ['\n', '\n']

/-- Scanner state for the `/\n\s*\n/` split: either plain text, or inside
a candidate separator (`saw` records whether a second `'\n'` was seen,
`runRev` the run consumed so far, `afterRev` the run chars after the last
`'\n'` — these belong to the next paragraph if the match succeeds). -/
inductive ScanSt where
  | norm
  | sep (saw : Bool) (runRev afterRev : List Char)

/-- Character-level embedding of `text.split(/\n\s*\n/)`. -/
def splitAux : List Char → List Char → ScanSt → List (List Char) → List (List Char)
  | [], curRev, ScanSt.norm, acc => acc ++ [curRev.reverse]
  | [], curRev, ScanSt.sep saw runRev afterRev, acc =>
      if saw then acc ++ [curRev.reverse, afterRev.reverse]
      else acc ++ [(runRev ++ curRev).reverse]
  | c :: cs, curRev, ScanSt.norm, acc =>
      if c = '\n' then splitAux cs curRev (ScanSt.sep false ['\n'] []) acc
      else splitAux cs (c :: curRev) ScanSt.norm acc
  | c :: cs, curRev, ScanSt.sep saw runRev afterRev, acc =>
      if c = '\n' then splitAux cs curRev (ScanSt.sep true (c :: runRev) []) acc
      else if isJsSpace c then splitAux cs curRev (ScanSt.sep saw (c :: runRev) (c :: afterRev)) acc
      else if saw then splitAux cs (c :: afterRev) ScanSt.norm (acc ++ [curRev.reverse])
      else splitAux cs (c :: (runRev ++ curRev)) ScanSt.norm acc

/-- `text.split(/\n\s*\n/)` — the paragraph list of `semanticChunk`. -/
def splitParas (text : List Char) : List (List Char) :=
  splitAux text [] ScanSt.norm []

/-- JS `String.prototype.trim()`. -/
def jsTrim (s : List Char) : List Char :=
  ((s.dropWhile isJsSpace).reverse.dropWhile isJsSpace).reverse

/-- The greedy paragraph-accumulation pass of `semanticChunk`: flush the
buffer when appending the next paragraph would exceed `maxSize` and the
buffer is nonempty; finally push the trimmed buffer if nonempty. -/
def greedyChunks (maxSize : Nat) : List (List Char) → List Char → List (List Char) → List (List Char)
  | [], current, chunks =>
      if 0 < (jsTrim current).length then chunks ++ [jsTrim current] else chunks
  | p :: ps, current, chunks =>
      if (current ++ sep2 ++ p).length > maxSize ∧ 0 < current.length then
        greedyChunks maxSize ps p (chunks ++ [jsTrim current])
      else
        greedyChunks maxSize ps (if current.isEmpty then p else current ++ sep2 ++ p) chunks

/-- `merged[merged.length - 1] += "\n\n" + chunks[i]` — append to the last
element of a nonempty list. -/
def appendToLast : List (List Char) → List Char → List (List Char)
  | [], c => [c]
  | [x], c => [x ++ sep2 ++ c]
  | x :: y :: xs, c => x :: appendToLast (y :: xs) c

/-- The small-chunk merge pass of `semanticChunk`: a chunk shorter than
`minSize` is appended (with `"\n\n"`) to the previously emitted chunk,
unless nothing has been emitted yet. -/
def mergeSmall (minSize : Nat) : List (List Char) → List (List Char) → List (List Char)
  | [], merged => merged
  | c :: cs, merged =>
      if c.length < minSize ∧ 0 < merged.length then
        mergeSmall minSize cs (appendToLast merged c)
      else
        mergeSmall minSize cs (merged ++ [c])

/-- The greedy pass applied to the paragraphs of `text` (the value of the
local `chunks` array in `semanticChunk`). -/
def greedyPass (text : List Char) (maxSize : Nat) : List (List Char) :=
  greedyChunks maxSize (splitParas text) [] []

/-- `semanticChunk(text, { maxChunkSize, minChunkSize })` (the source's
defaults are `maxSize = 1200`, `minSize = 300`). -/
def semanticChunk (text : List Char) (maxSize minSize : Nat) : List (List Char) :=
  mergeSmall minSize (greedyPass text maxSize) []

/-- Join a chunk / paragraph list with the `"\n\n"` separator (the
separator used both by the source's accumulation and by reconstruction). -/
def joinSep : List (List Char) → List Char
  | [] => []
  | [p] => p
  | p :: q :: ps => p ++ sep2 ++ joinSep (q :: ps)

/-- The flattened tail contribution `"\n\n" + p` per list element. -/
def flatT : List (List Char) → List Char
  | [] => []
  | p :: ps => sep2 ++ p ++ flatT ps

/-- A well-formed paragraph for the reconstruction theorem: nonempty,
newline-free, and not starting or ending with whitespace. -/
def goodPara (p : List Char) : Prop :=
  p ≠ [] ∧ (∀ c ∈ p, c ≠ '\n') ∧
  isJsSpace (p.headD 'a') = false ∧ isJsSpace (p.getLastD 'a') = false

/-- A buffer on which `jsTrim` is the identity: nonempty and not
starting or ending with whitespace (unlike `goodPara`, it may contain
interior newlines — the greedy buffer holds `"\n\n"` separators). -/
def trimSafe (s : List Char) : Prop :=
  s ≠ [] ∧ isJsSpace (s.headD 'a') = false ∧ isJsSpace (s.getLastD 'a') = false

/-- A one-character paragraph followed by an oversized paragraph (for
`maxSize = 10`, `minSize = 4`): the greedy pass flushes the tiny buffer,
and the merge pass keeps it as the **first** emitted chunk. -/
def cexText1 : List Char := 'a' :: '\n' :: '\n' :: List.replicate 12 'b'

/-- Two paragraphs of lengths 9 and 3 (for `maxSize = 10`,
`minSize = 4`): both fit `maxSize`, but the undersized final chunk is
merged backwards, pushing the first chunk to length 14 > 10. -/
def cexText2 : List Char := List.replicate 9 'a' ++ '\n' :: '\n' :: List.replicate 3 'c'

/-- The text `"a "`: its only chunk is trimmed to `"a"`, losing the
trailing blank. -/
def cexText3 : List Char := ['a', ' ']

/-! ## Cosine similarity and the re-rank stage

Vectors are `List ℝ`.  A JS arithmetic result that is not a finite real
(NaN from `0/0`, ±∞ from `x/0`, NaN from an out-of-range index) is
modelled as `none`. -/

/-- `a.reduce((sum, ai) => sum + ai * ai, 0)` — the sum of squares. -/
def sumSq : List ℝ → ℝ
  | [] => 0
  | x :: xs => x * x + sumSq xs

/-- `a.reduce((sum, ai, i) => sum + ai * b[i], 0)` for `a` no longer than
`b` (the out-of-range case is handled by `cosineSimilarity`). -/
def dotList : List ℝ → List ℝ → ℝ
  | [], _ => 0
  | _ :: _, [] => 0
  | a :: as, b :: bs => a * b + dotList as bs

/-- JS division with the non-finite results made explicit: `x / 0` is NaN
or ±∞, never a real score. -/
noncomputable def jsDiv (x y : ℝ) : Option ℝ :=
  if y = 0 then none else some (x / y)

/-- `cosineSimilarity(a, b)` from the source:
`dot / (normA * normB)` with **no** zero-norm guard.  Reading `b[i]`
past the end of `b` yields NaN, hence the length test. -/
noncomputable def cosineSimilarity (a b : List ℝ) : Option ℝ :=
  if a.length ≤ b.length then
    jsDiv (dotList a b) (Real.sqrt (sumSq a) * Real.sqrt (sumSq b))
  else none

/-- Step 5 of `hybridRetrieve`: per-candidate re-ranking.  `embed q c` is
the transformer call on `[query, content]`, returning the two embedding
vectors, or `none` when the call throws; the `catch` branch of the source
assigns `transformerScore = 0` to that candidate only. -/
noncomputable def rerankStage (embed : String → String → Option (List ℝ × List ℝ))
    (query : String) (cs : List ChromaDoc) : List ChromaDoc :=
  cs.map fun d =>
    match embed query d.content with
    | some (qe, de) => { d with transformerScore := cosineSimilarity qe de }
    | none => { d with transformerScore := some 0 }

/-! ## Keyword search stage of `hybridRetrieve` -/

/-- `query.toLowerCase()` (ASCII case folding, character by character). -/
def toLowerStr (s : String) : String :=
  String.mk (s.data.map Char.toLower)

/-- Test whether `needle` occurs at the start of `hay`. -/
def subAt : List Char → List Char → Bool
  | [], _ => true
  | _ :: _, [] => false
  | a :: as, b :: bs => a == b && subAt as bs

/-- JS `hay.includes(needle)` — substring test. -/
def hasSub (needle : List Char) : List Char → Bool
  | [] => needle.isEmpty
  | c :: tl => subAt needle (c :: tl) || hasSub needle tl

/-- The mapping part of the keyword stage: each listed store entry becomes
a candidate with `content: doc || ''` and the placeholder `distance: 0.5`. -/
def keywordDocs (entries : List StoredEntry) : List ChromaDoc :=
  entries.map fun e =>
    { id := e.id, content := e.content.getD "", metadata := e.metadata, distance := 1 / 2 }

/-- The keyword search stage of `hybridRetrieve`: keep entries whose
content is truthy (nonempty) and contains the query case-insensitively. -/
def keywordStage (entries : List StoredEntry) (query : String) : List ChromaDoc :=
  (keywordDocs entries).filter fun d =>
    decide (d.content ≠ "") && hasSub (toLowerStr query).data (toLowerStr d.content).data

/-! ## `ChromaRetriever.retrieve` — formatting and the references side channel -/

/-- A `references` entry written to `userContext`. -/
structure Reference where
  id : String
  title : MetaVal
  source : MetaVal
  distance : ℚ
deriving DecidableEq

/-- `userContext`, restricted to its `references`-shaped slots. -/
abbrev Ctx := List (String × List Reference)

/-- JS `x ?? d` — nullish coalescing over a metadata lookup
(`undefined` and `null` both fall back to the default). -/
def nullishD : Option MetaVal → MetaVal → MetaVal
  | none, d => d
  | some MetaVal.null, d => d
  | some v, _ => v

/-- The references built from a result list:
`{ id, title: metadata.title ?? "Document i+1", source: metadata.source ??
"Chroma Knowledge Base", distance }`. -/
def buildRefs (results : List ChromaDoc) : List Reference :=
  results.enum.map fun p =>
    { id := p.2.id,
      title := nullishD (lookupA p.2.metadata "title")
        (MetaVal.str ("Document " ++ toString (p.1 + 1))),
      source := nullishD (lookupA p.2.metadata "source") (MetaVal.str "Chroma Knowledge Base"),
      distance := p.2.distance }

/-- Pad a natural number to four decimal digits. -/
def pad4 (n : Nat) : String :=
  String.mk (List.replicate (4 - (toString n).length) '0') ++ toString n

/-- JS `x.toFixed(4)`: for negative `x` a leading minus sign, then the
integer nearest to `|x|·10⁴` (ties toward the larger integer) rendered
with exactly four decimals. -/
def toFixed4 (x : ℚ) : String :=
  (if x < 0 then "-" else "") ++
  (toString ((⌊|x| * 10000 + 1 / 2⌋).toNat / 10000)) ++ "." ++
  pad4 ((⌊|x| * 10000 + 1 / 2⌋).toNat % 10000)

/-- The fixed sentinel returned when retrieval finds no documents. -/
def sentinelNoDocs : String := "No relevant documents found in the knowledge base."

/-- The per-document line of `ChromaRetriever.retrieve`. -/
def fmtDoc (i : Nat) (d : ChromaDoc) : String :=
  "Document " ++ toString (i + 1) ++ " (ID: " ++ d.id ++ ", Distance: " ++
    toFixed4 d.distance ++ "):\n" ++ d.content

/-- `ChromaRetriever.retrieve` from the store results onward (the store
query itself is the external collaborator): write the references to
`userContext` when it is present and results are nonempty, then return
either the sentinel or the formatted, `"\n\n---\n\n"`-joined context. -/
def retrieveRun (results : List ChromaDoc) (uctx : Option Ctx) : Option Ctx × String :=
  let uctx' :=
    match uctx with
    | some c =>
        if 0 < results.length then some (setAssoc c "references" (buildRefs results))
        else some c
    | none => none
  if results.length = 0 then (uctx', sentinelNoDocs)
  else (uctx', String.intercalate "\n\n---\n\n" (results.enum.map fun p => fmtDoc p.1 p.2))

/-- Modelled from the spec: the human-readable output string of
`retrieve` as §6 describes it — per-candidate
`"Document {i} (ID: {id}, Distance: {distance:.4f}):\n{content}"` joined
by `"\n\n---\n\n"`, and a fixed sentinel for zero candidates. -/
def retrieveSpecString (results : List ChromaDoc) : String :=
  match results with
  | [] => sentinelNoDocs
  | _ :: _ => String.intercalate "\n\n---\n\n" (results.enum.map fun p => fmtDoc p.1 p.2)

/-! ## Iterative retrieval loop -/

/-- `results.map(doc => doc.content).join("\n\n")`. -/
def joinContents (docs : List ChromaDoc) : String :=
  String.intercalate "\n\n" (docs.map fun d => d.content)

/-- The simulated generation step of `iterativeRetrieve`:
a template over the current query and the first 100 characters of the
retrieved context. -/
def nextQuery (q ctx : String) : String :=
  "LLM answer to: " ++ q ++ " (context: " ++ ctx.take 100 ++ "...)"

/-- The `for` loop of `iterativeRetrieve`; `retr` is the full hybrid
retrieval pipeline as a function of the query (an external collaborator
chain from the loop's point of view). -/
def iterLoop (retr : String → List ChromaDoc) : Nat → String → List String
  | 0, _ => []
  | n + 1, q =>
      let context := joinContents (retr q)
      context :: iterLoop retr n (nextQuery q context)

/-- `iterativeRetrieve({ query, steps })`. -/
def iterativeRetrieve (retr : String → List ChromaDoc) (query : String) (steps : Nat) : List String :=
  iterLoop retr steps query

/-- The query fed into step `i` of the loop (step 0 gets the caller's
query, each later step the generated follow-up). -/
def iterQuery (retr : String → List ChromaDoc) (q : String) : Nat → String
  | 0 => q
  | n + 1 => nextQuery (iterQuery retr q n) (joinContents (retr (iterQuery retr q n)))

/-! ## Association-map lemmas -/

theorem lookupA_setAssoc_self {α : Type} (m : List (String × α)) (k : String) (v : α) :
    lookupA (setAssoc m k v) k = some v := by
  induction m with
  | nil => simp [setAssoc, lookupA]
  | cons h t ih =>
      obtain ⟨k', v'⟩ := h
      by_cases hk : k' = k
      · simp [setAssoc, hk, lookupA]
      · simp [setAssoc, hk, lookupA, ih]

theorem lookupA_setAssoc_ne {α : Type} (m : List (String × α)) (k k' : String) (v : α)
    (h : k ≠ k') : lookupA (setAssoc m k v) k' = lookupA m k' := by
  induction m with
  | nil => simp [setAssoc, lookupA, h]
  | cons hd t ih =>
      obtain ⟨k₀, v₀⟩ := hd
      by_cases hk : k₀ = k
      · subst hk
        simp [setAssoc, lookupA, h]
      · simp [setAssoc, hk, lookupA, ih]

theorem lookupA_updAssoc_self {α : Type} (m : List (String × α)) (k : String) (f : α → α) :
    lookupA (updAssoc m k f) k = (lookupA m k).map f := by
  induction m with
  | nil => simp [updAssoc, lookupA]
  | cons hd t ih =>
      obtain ⟨k₀, v₀⟩ := hd
      by_cases hk : k₀ = k
      · simp [updAssoc, hk, lookupA]
      · simp [updAssoc, hk, lookupA, ih]

theorem lookupA_updAssoc_ne {α : Type} (m : List (String × α)) (k k' : String) (f : α → α)
    (h : k ≠ k') : lookupA (updAssoc m k f) k' = lookupA m k' := by
  induction m with
  | nil => simp [updAssoc, lookupA]
  | cons hd t ih =>
      obtain ⟨k₀, v₀⟩ := hd
      by_cases hk : k₀ = k
      · subst hk
        simp [updAssoc, lookupA, h]
      · simp [updAssoc, hk, lookupA, ih]

/-! ## RRF fusion lemmas (claim C1) -/

theorem contribAux_of_not_mem (id : String) (ds : List ChromaDoc) (r : Nat)
    (h : id ∉ ds.map fun d => d.id) : contribAux id ds r = 0 := by
  induction ds generalizing r with
  | nil => rfl
  | cons d t ih =>
      simp only [List.map_cons, List.mem_cons] at h
      push_neg at h
      have hne : d.id ≠ id := fun heq => h.1 heq.symm
      simp [contribAux, hne, ih _ h.2]

theorem mergeVector_lookup_not_mem (ds : List ChromaDoc) (r : Nat)
    (m : List (String × ChromaDoc)) (id : String) (h : id ∉ ds.map fun d => d.id) :
    lookupA (mergeVector ds r m) id = lookupA m id := by
  induction ds generalizing r m with
  | nil => rfl
  | cons d t ih =>
      simp only [List.map_cons, List.mem_cons] at h
      push_neg at h
      rw [mergeVector, ih _ _ h.2, lookupA_setAssoc_ne _ _ _ _ h.1.symm]

theorem mergeVector_lookup_mem (ds : List ChromaDoc) (r : Nat)
    (m : List (String × ChromaDoc)) (id : String)
    (hnd : (ds.map fun d => d.id).Nodup) (h : id ∈ ds.map fun d => d.id) :
    ∃ d ∈ ds, d.id = id ∧
      lookupA (mergeVector ds r m) id = some { d with rrf := some (contribAux id ds r) } := by
  induction ds generalizing r m with
  | nil => simp at h
  | cons d t ih =>
      simp only [List.map_cons, List.nodup_cons] at hnd
      rcases List.mem_cons.mp h with heq | hmem
      · subst heq
        refine ⟨d, List.mem_cons_self _ _, rfl, ?_⟩
        rw [mergeVector, mergeVector_lookup_not_mem _ _ _ _ hnd.1, lookupA_setAssoc_self]
        simp [contribAux]
      · obtain ⟨d', hd', hid, hlook⟩ := ih _ _ hnd.2 hmem
        have hne : d.id ≠ id := fun heq => hnd.1 (heq ▸ hmem)
        refine ⟨d', List.mem_cons_of_mem _ hd', hid, ?_⟩
        rw [mergeVector, hlook]
        simp [contribAux, hne]

theorem mergeKeyword_lookup_not_mem (ks : List ChromaDoc) (r : Nat)
    (m : List (String × ChromaDoc)) (id : String) (h : id ∉ ks.map fun d => d.id) :
    lookupA (mergeKeyword ks r m) id = lookupA m id := by
  induction ks generalizing r m with
  | nil => rfl
  | cons d t ih =>
      simp only [List.map_cons, List.mem_cons] at h
      push_neg at h
      rw [mergeKeyword]
      by_cases hs : (lookupA m d.id).isSome
      · rw [if_pos hs, ih _ _ h.2, lookupA_updAssoc_ne _ _ _ _ h.1.symm]
      · rw [if_neg hs, ih _ _ h.2, lookupA_setAssoc_ne _ _ _ _ h.1.symm]

theorem mergeKeyword_lookup_mem (ks : List ChromaDoc) (r : Nat)
    (m : List (String × ChromaDoc)) (id : String)
    (hnd : (ks.map fun d => d.id).Nodup) (h : id ∈ ks.map fun d => d.id) :
    ∃ d ∈ ks, d.id = id ∧
      lookupA (mergeKeyword ks r m) id =
        match lookupA m id with
        | some c => some { c with rrf := some (c.rrf.getD 0 + contribAux id ks r) }
        | none => some { d with rrf := some (contribAux id ks r) } := by
  induction ks generalizing r m with
  | nil => simp at h
  | cons d t ih =>
      simp only [List.map_cons, List.nodup_cons] at hnd
      rcases List.mem_cons.mp h with heq | hmem
      · subst heq
        refine ⟨d, List.mem_cons_self _ _, rfl, ?_⟩
        rw [mergeKeyword]
        by_cases hs : (lookupA m d.id).isSome
        · obtain ⟨c, hc⟩ := Option.isSome_iff_exists.mp hs
          rw [if_pos hs, mergeKeyword_lookup_not_mem _ _ _ _ hnd.1,
            lookupA_updAssoc_self, hc]
          simp [contribAux]
        · have hc : lookupA m d.id = none := Option.not_isSome_iff_eq_none.mp hs
          rw [if_neg hs, mergeKeyword_lookup_not_mem _ _ _ _ hnd.1,
            lookupA_setAssoc_self, hc]
          simp [contribAux]
      · have hne : d.id ≠ id := fun heq => hnd.1 (heq ▸ hmem)
        rw [mergeKeyword]
        by_cases hs : (lookupA m d.id).isSome
        · obtain ⟨d', hd', hid, hlook⟩ := ih (r + 1)
            (updAssoc m d.id fun c => { c with rrf := some (c.rrf.getD 0 + 1 / (r : ℚ)) })
            hnd.2 hmem
          refine ⟨d', List.mem_cons_of_mem _ hd', hid, ?_⟩
          rw [if_pos hs, hlook, lookupA_updAssoc_ne _ _ _ _ hne]
          simp [contribAux, hne]
        · obtain ⟨d', hd', hid, hlook⟩ := ih (r + 1)
            (setAssoc m d.id { d with rrf := some (1 / (r : ℚ)) }) hnd.2 hmem
          refine ⟨d', List.mem_cons_of_mem _ hd', hid, ?_⟩
          rw [if_neg hs, hlook, lookupA_setAssoc_ne _ _ _ _ hne]
          simp [contribAux, hne]

/-- C1.  For id-distinct result lists, the fused map of `hybridRetrieve`
assigns every document id appearing in either list the rrf score
`Σ over lists containing the id of 1 / (its 1-based rank in that list)`
(vector list in returned order, keyword list in discovery order); a list
not containing the id contributes `0`. -/
theorem hybridRetrieve_rrf_score (vec kw : List ChromaDoc)
    (hv : (vec.map fun d => d.id).Nodup) (hk : (kw.map fun d => d.id).Nodup) :
    ∀ id : String, id ∈ (vec.map fun d => d.id) ∨ id ∈ (kw.map fun d => d.id) →
      fusedRrf vec kw id = some (contrib vec id + contrib kw id) := by
  intro id hmem
  unfold fusedRrf fuseMap contrib
  by_cases hkw : id ∈ kw.map fun d => d.id
  · obtain ⟨d, _, _, hlook⟩ := mergeKeyword_lookup_mem kw 1 (mergeVector vec 1 []) id hk hkw
    by_cases hvec : id ∈ vec.map fun d => d.id
    · obtain ⟨dv, _, _, hlv⟩ := mergeVector_lookup_mem vec 1 [] id hv hvec
      rw [hlook, hlv]
      simp
    · rw [hlook, mergeVector_lookup_not_mem _ _ _ _ hvec]
      simp [lookupA, contribAux_of_not_mem id vec 1 hvec]
  · have hvec : id ∈ vec.map fun d => d.id := hmem.resolve_right hkw
    obtain ⟨dv, _, _, hlv⟩ := mergeVector_lookup_mem vec 1 [] id hv hvec
    rw [mergeKeyword_lookup_not_mem _ _ _ _ hkw, hlv]
    simp [contribAux_of_not_mem id kw 1 hkw]

/-- C1 witness: the spec's own scenario — vector list `[A, B, C]`,
keyword list `[C, A]` — satisfies the hypotheses, and the fused scores
are exactly `A = 3/2`, `B = 1/2`, `C = 1/3 + 1`. -/
theorem hybridRetrieve_rrf_score_witness :
    fusedRrf [docOf "A", docOf "B", docOf "C"] [docOf "C", docOf "A"] "A" =
      some (contrib [docOf "A", docOf "B", docOf "C"] "A" +
        contrib [docOf "C", docOf "A"] "A") ∧
    fusedRrf [docOf "A", docOf "B", docOf "C"] [docOf "C", docOf "A"] "A" = some (3 / 2) ∧
    fusedRrf [docOf "A", docOf "B", docOf "C"] [docOf "C", docOf "A"] "B" = some (1 / 2) ∧
    fusedRrf [docOf "A", docOf "B", docOf "C"] [docOf "C", docOf "A"] "C" = some (1 / 3 + 1) :=
  ⟨hybridRetrieve_rrf_score _ _ (by decide) (by decide) "A" (by decide),
   by simp [fusedRrf, fuseMap, mergeKeyword, mergeVector, lookupA, setAssoc, updAssoc, docOf]
      norm_num,
   by simp [fusedRrf, fuseMap, mergeKeyword, mergeVector, lookupA, setAssoc, updAssoc, docOf],
   by simp [fusedRrf, fuseMap, mergeKeyword, mergeVector, lookupA, setAssoc, updAssoc, docOf]⟩

/-! ## Metadata filtering (claim C9) -/

/-- C9.  A fused candidate survives the metadata filter of
`hybridRetrieve` iff its metadata maps **every** filter key to exactly
the filter's expected string value (AND semantics, strict equality);
filtering only drops candidates, leaving the survivors unchanged and in
order (a sublist of the input). -/
theorem hybridRetrieve_metadata_filter (f : List (String × String)) (docs : List ChromaDoc) :
    (∀ d : ChromaDoc, d ∈ filterStep (some f) docs ↔
      d ∈ docs ∧ ∀ kv ∈ f, lookupA d.metadata kv.1 = some (MetaVal.str kv.2)) ∧
    List.Sublist (filterStep (some f) docs) docs := by
  constructor
  · intro d
    simp [filterStep, List.mem_filter, matchesFilter, List.all_eq_true]
  · exact List.filter_sublist docs

/-- C9 witness: with filter `{type: "x"}`, a matching and a
non-matching candidate behave as the theorem states. -/
theorem hybridRetrieve_metadata_filter_witness :
    (docOf "A" ∈ filterStep (some [("type", "x")])
        [{ docOf "A" with metadata := [("type", MetaVal.str "x")] }, docOf "A"] ↔
      docOf "A" ∈ [{ docOf "A" with metadata := [("type", MetaVal.str "x")] }, docOf "A"] ∧
        ∀ kv ∈ [("type", "x")],
          lookupA (docOf "A").metadata kv.1 = some (MetaVal.str kv.2)) :=
  (hybridRetrieve_metadata_filter [("type", "x")]
    [{ docOf "A" with metadata := [("type", MetaVal.str "x")] }, docOf "A"]).1 (docOf "A")

/-! ## Empty-query keyword stage (claim C10) -/

theorem hasSub_nil (hay : List Char) : hasSub [] hay = true := by
  cases hay <;> simp [hasSub, subAt, List.isEmpty]

/-- C10.  With the empty query, the keyword stage of `hybridRetrieve`
keeps exactly the stored documents whose content is nonempty (the
case-insensitive substring test is vacuously true), and every candidate
it produces carries the sentinel distance `0.5`. -/
theorem hybridRetrieve_empty_query_keyword (entries : List StoredEntry) :
    keywordStage entries "" =
      (keywordDocs entries).filter (fun d => decide (d.content ≠ "")) ∧
    ∀ d ∈ keywordStage entries "", d.distance = 1 / 2 := by
  have hfilter : keywordStage entries "" =
      (keywordDocs entries).filter (fun d => decide (d.content ≠ "")) := by
    unfold keywordStage
    apply List.filter_congr
    intro d _
    have : (toLowerStr "").data = [] := rfl
    rw [this, hasSub_nil, Bool.and_true]
  refine ⟨hfilter, ?_⟩
  intro d hd
  rw [hfilter] at hd
  have hd' : d ∈ keywordDocs entries := List.mem_of_mem_filter hd
  obtain ⟨e, _, he⟩ := List.mem_map.mp hd'
  rw [← he]

/-- C10 witness: a store with one nonempty, one empty and one null
content; the empty query keeps exactly the nonempty one, at distance
`1/2`. -/
theorem hybridRetrieve_empty_query_keyword_witness :
    keywordStage [⟨some "Hello", [], "d1"⟩, ⟨some "", [], "d2"⟩, ⟨none, [], "d3"⟩] "" =
      (keywordDocs [⟨some "Hello", [], "d1"⟩, ⟨some "", [], "d2"⟩, ⟨none, [], "d3"⟩]).filter
        (fun d => decide (d.content ≠ "")) ∧
    ({ id := "d1", content := "Hello", metadata := [], distance := 1 / 2 } : ChromaDoc).distance
      = 1 / 2 :=
  ⟨(hybridRetrieve_empty_query_keyword _).1,
   (hybridRetrieve_empty_query_keyword
      [⟨some "Hello", [], "d1"⟩, ⟨some "", [], "d2"⟩, ⟨none, [], "d3"⟩]).2
      { id := "d1", content := "Hello", metadata := [], distance := 1 / 2 }
      (show _ ∈ [({ id := "d1", content := "Hello", metadata := [], distance := 1 / 2 } :
        ChromaDoc)] from List.Mem.head _)⟩

/-! ## Re-rank partial failure tolerance (claim C5) -/

theorem getD_map {α β : Type} [Inhabited α] [Inhabited β] (l : List α) (f : α → β) (i : Nat)
    (h : i < l.length) : (l.map f).getD i default = f (l.getD i default) := by
  induction l generalizing i with
  | nil => simp at h
  | cons a t ih =>
      cases i with
      | zero => rfl
      | succ j =>
          simp only [List.length_cons, Nat.succ_lt_succ_iff] at h
          simpa using ih j h

/-- C5.  If the embedding call throws for exactly one of the fused
candidates, the re-rank stage of `hybridRetrieve` still returns all of
them: the failing candidate gets `transformerScore = 0` and every other
candidate gets exactly the cosine similarity of its embedding pair — no
single failure aborts the batch. -/
theorem rerank_partial_failure (embed : String → String → Option (List ℝ × List ℝ))
    (q : String) (cs : List ChromaDoc) (j : Nat) (hj : j < cs.length)
    (hfail : embed q (cs.getD j default).content = none)
    (hok : ∀ i, i < cs.length → i ≠ j → (embed q (cs.getD i default).content).isSome = true) :
    (rerankStage embed q cs).length = cs.length ∧
    ((rerankStage embed q cs).getD j default).transformerScore = some 0 ∧
    ∀ i, i < cs.length → i ≠ j →
      ∃ qe de, embed q (cs.getD i default).content = some (qe, de) ∧
        ((rerankStage embed q cs).getD i default).transformerScore = cosineSimilarity qe de := by
  refine ⟨by simp [rerankStage], ?_, ?_⟩
  · rw [rerankStage, getD_map _ _ _ hj, hfail]
  · intro i hi hne
    obtain ⟨p, hp⟩ := Option.isSome_iff_exists.mp (hok i hi hne)
    obtain ⟨qe, de⟩ := p
    refine ⟨qe, de, hp, ?_⟩
    rw [rerankStage, getD_map _ _ _ hi, hp]

/-- C5 witness: two candidates, the embedding throwing on the second
only; the stage keeps both and scores the failing one `0`. -/
theorem rerank_partial_failure_witness :
    (rerankStage (fun _ c => if c = "A" then some ([1], [1]) else none) "q"
        [docOf "A", docOf "B"]).length = 2 ∧
    ((rerankStage (fun _ c => if c = "A" then some ([1], [1]) else none) "q"
        [docOf "A", docOf "B"]).getD 1 default).transformerScore = some 0 :=
  ⟨(rerank_partial_failure (fun _ c => if c = "A" then some ([1], [1]) else none) "q"
      [docOf "A", docOf "B"] 1 (by decide) (by simp [docOf])
      (by
        intro i hi hne
        simp only [List.length_cons, List.length_nil] at hi
        have h0 : i = 0 := by omega
        subst h0
        simp [docOf])).1,
   (rerank_partial_failure (fun _ c => if c = "A" then some ([1], [1]) else none) "q"
      [docOf "A", docOf "B"] 1 (by decide) (by simp [docOf])
      (by
        intro i hi hne
        simp only [List.length_cons, List.length_nil] at hi
        have h0 : i = 0 := by omega
        subst h0
        simp [docOf])).2.1⟩

/-! ## Iterative retrieval loop (claim C6) -/

theorem iterLoop_length (retr : String → List ChromaDoc) (k : Nat) (q : String) :
    (iterLoop retr k q).length = k := by
  induction k generalizing q with
  | zero => rfl
  | succ n ih => simp [iterLoop, ih]

theorem iterQuery_shift (retr : String → List ChromaDoc) :
    ∀ (m : Nat) (q : String), iterQuery retr q (m + 1) =
      iterQuery retr (nextQuery q (joinContents (retr q))) m := by
  intro m
  induction m with
  | zero => intro q; simp [iterQuery]
  | succ m' ihm =>
      intro q
      have h1 : iterQuery retr q (m' + 1 + 1) =
          nextQuery (iterQuery retr q (m' + 1))
            (joinContents (retr (iterQuery retr q (m' + 1)))) := by
        simp [iterQuery]
      rw [h1, ihm q]
      simp [iterQuery]

theorem iterLoop_getD (retr : String → List ChromaDoc) (k : Nat) (q : String) (i : Nat)
    (h : i < k) :
    (iterLoop retr k q).getD i "" = joinContents (retr (iterQuery retr q i)) := by
  induction k generalizing q i with
  | zero => omega
  | succ n ih =>
      cases i with
      | zero => rfl
      | succ j =>
          have hj : j < n := by omega
          calc (iterLoop retr (n + 1) q).getD (j + 1) ""
              = (iterLoop retr n (nextQuery q (joinContents (retr q)))).getD j "" := rfl
            _ = joinContents (retr (iterQuery retr
                  (nextQuery q (joinContents (retr q))) j)) := ih _ j hj
            _ = joinContents (retr (iterQuery retr q (j + 1))) := by
                rw [iterQuery_shift retr j q]

/-- C6.  `iterativeRetrieve({query, steps: k})` returns exactly `k`
context strings, one per iteration; a step whose retrieval yields zero
candidates contributes the empty context string and the loop continues. -/
theorem iterativeRetrieve_steps (retr : String → List ChromaDoc) (q : String) (k : Nat) :
    (iterativeRetrieve retr q k).length = k ∧
    ∀ i, i < k → retr (iterQuery retr q i) = [] →
      (iterativeRetrieve retr q k).getD i "" = "" := by
  refine ⟨iterLoop_length retr k q, ?_⟩
  intro i hi hempty
  rw [iterativeRetrieve, iterLoop_getD retr k q i hi, hempty]
  rfl

/-- C6 witness: a pipeline that always finds zero candidates still
produces two context strings for `steps = 2`, the first being empty. -/
theorem iterativeRetrieve_steps_witness :
    (iterativeRetrieve (fun _ => []) "x" 2).length = 2 ∧
    (iterativeRetrieve (fun _ => []) "x" 2).getD 0 "" = "" :=
  ⟨(iterativeRetrieve_steps (fun _ => []) "x" 2).1,
   (iterativeRetrieve_steps (fun _ => []) "x" 2).2 0 (by decide) rfl⟩

/-! ## Cosine similarity (claim C4) -/

theorem sumSq_nonneg (a : List ℝ) : 0 ≤ sumSq a := by
  induction a with
  | nil => simp [sumSq]
  | cons x xs ih =>
      rw [sumSq]
      have := mul_self_nonneg x
      linarith

theorem sumSq_eq_zero_of_all_zero (a : List ℝ) (h : ∀ x ∈ a, x = 0) : sumSq a = 0 := by
  induction a with
  | nil => rfl
  | cons x xs ih =>
      rw [sumSq, h x (List.mem_cons_self _ _), ih fun y hy => h y (List.mem_cons_of_mem _ hy)]
      ring

/-- C4 counterexample: for `a = [0]`, `b = [1]` the norm of `a` is `0`,
yet `cosineSimilarity` evaluates `0 / (0 * 1)` — NaN in JS, `none` here —
and not the `0` the claim promises: the source has no zero-norm guard. -/
theorem cosineSimilarity_zero_norm_counterexample :
    cosineSimilarity [(0 : ℝ)] [(1 : ℝ)] = none ∧
    Real.sqrt (sumSq [(0 : ℝ)]) = 0 ∧
    (none : Option ℝ) ≠ some 0 := by
  refine ⟨?_, ?_, by simp⟩
  · simp [cosineSimilarity, jsDiv, sumSq, Real.sqrt_eq_zero']
  · simp [sumSq, Real.sqrt_eq_zero']

/-- C4 (amended).  The re-ranker's score is
`dot(a,b) / (‖a‖ · ‖b‖)` exactly — but only when that denominator is
nonzero; when either vector is all zeros (zero Euclidean norm) the
unguarded division produces NaN (`none`), not `0`. -/
theorem cosineSimilarity_amended (a b : List ℝ) (hlen : a.length ≤ b.length) :
    (Real.sqrt (sumSq a) * Real.sqrt (sumSq b) ≠ 0 →
      cosineSimilarity a b =
        some (dotList a b / (Real.sqrt (sumSq a) * Real.sqrt (sumSq b)))) ∧
    ((∀ x ∈ a, x = 0) ∨ (∀ x ∈ b, x = 0) → cosineSimilarity a b = none) := by
  constructor
  · intro hne
    rw [cosineSimilarity, if_pos hlen, jsDiv, if_neg hne]
  · intro hzero
    have hden : Real.sqrt (sumSq a) * Real.sqrt (sumSq b) = 0 := by
      rcases hzero with h | h
      · rw [sumSq_eq_zero_of_all_zero a h, Real.sqrt_zero, zero_mul]
      · rw [sumSq_eq_zero_of_all_zero b h, Real.sqrt_zero, mul_zero]
    rw [cosineSimilarity, if_pos hlen, jsDiv, if_pos hden]

/-- C4 witness: for `a = b = [1]` the norms are nonzero and the score is
the normalised dot product; for `a = [0]`, `b = [1]` the zero-norm case
yields `none`. -/
theorem cosineSimilarity_amended_witness :
    cosineSimilarity [(1 : ℝ)] [(1 : ℝ)] =
      some (dotList [(1 : ℝ)] [(1 : ℝ)] /
        (Real.sqrt (sumSq [(1 : ℝ)]) * Real.sqrt (sumSq [(1 : ℝ)]))) ∧
    cosineSimilarity [(0 : ℝ)] [(1 : ℝ)] = none :=
  ⟨(cosineSimilarity_amended [(1 : ℝ)] [(1 : ℝ)] (by simp)).1
      (by simp [sumSq]),
   (cosineSimilarity_amended [(0 : ℝ)] [(1 : ℝ)] (by simp)).2
      (Or.inl (by simp))⟩

/-! ## `retrieve` output formatting (claim C7) -/

/-- C7.  The single-pass `retrieve` returns, for a nonempty result list,
the `"\n\n---\n\n"`-joined concatenation of
`"Document {i} (ID: {id}, Distance: {distance:.4f}):\n{content}"` lines,
and for zero results the fixed (nonempty) sentinel string — exactly the
string the spec describes (`retrieveSpecString`), whatever the state of
`userContext`. -/
theorem retrieve_output_format (results : List ChromaDoc) (uctx : Option Ctx) :
    (retrieveRun results uctx).2 = retrieveSpecString results ∧
    sentinelNoDocs ≠ "" := by
  refine ⟨?_, by decide⟩
  cases results with
  | nil => rfl
  | cons d t => rfl

theorem toFixed4_zero : toFixed4 0 = "0.0000" := by
  have hf : ⌊|(0 : ℚ)| * 10000 + 1 / 2⌋ = 0 := by
    rw [Int.floor_eq_zero_iff]
    constructor <;> norm_num
  unfold toFixed4
  rw [hf, if_neg (by norm_num)]
  decide

/-- C7 witness: one concrete document; the rendered line carries the id,
the `toFixed(4)` distance and the content, in the specified format. -/
theorem retrieve_output_format_witness :
    (retrieveRun [docOf "A"] none).2 = retrieveSpecString [docOf "A"] ∧
    retrieveSpecString [docOf "A"] = "Document 1 (ID: A, Distance: 0.0000):\nA" :=
  ⟨(retrieve_output_format [docOf "A"] none).1,
   by
     rw [show retrieveSpecString [docOf "A"] = "Document " ++ toString (0 + 1) ++ " (ID: " ++
       "A" ++ ", Distance: " ++ toFixed4 (0 : ℚ) ++ "):\n" ++ "A" from rfl, toFixed4_zero]
     decide⟩

/-! ## References side channel (claim C8) -/

/-- C8 counterexample: two successive retrievals on the same context.
The first writes its reference under `"references"`; the second call
**replaces** that value wholesale — the first retrieval's entry is gone,
so the `references` record is not append-only. -/
theorem references_overwrite_counterexample :
    (retrieveRun [docOf "A"] (some [])).1 =
      some [("references", buildRefs [docOf "A"])] ∧
    (retrieveRun [docOf "B"] (retrieveRun [docOf "A"] (some [])).1).1 =
      some [("references", buildRefs [docOf "B"])] ∧
    buildRefs [docOf "A"] =
      [{ id := "A", title := MetaVal.str "Document 1",
         source := MetaVal.str "Chroma Knowledge Base", distance := 0 }] ∧
    buildRefs [docOf "B"] =
      [{ id := "B", title := MetaVal.str "Document 1",
         source := MetaVal.str "Chroma Knowledge Base", distance := 0 }] ∧
    ({ id := "A", title := MetaVal.str "Document 1",
       source := MetaVal.str "Chroma Knowledge Base", distance := 0 } : Reference) ∉
      [({ id := "B", title := MetaVal.str "Document 1",
          source := MetaVal.str "Chroma Knowledge Base", distance := 0 } : Reference)] := by
  refine ⟨rfl, rfl, rfl, rfl, ?_⟩
  decide

/-- C8 (amended).  A successful retrieval with at least one candidate
**sets** the `"references"` key of the caller's context to the references
of that retrieval alone, overwriting any previous value under that key;
entries under other keys are preserved. -/
theorem references_set_amended (results : List ChromaDoc) (c : Ctx) (h : results ≠ []) :
    (retrieveRun results (some c)).1 =
      some (setAssoc c "references" (buildRefs results)) ∧
    lookupA (setAssoc c "references" (buildRefs results)) "references" =
      some (buildRefs results) ∧
    ∀ k : String, k ≠ "references" →
      lookupA (setAssoc c "references" (buildRefs results)) k = lookupA c k := by
  have hlen : 0 < results.length := List.length_pos.mpr h
  refine ⟨?_, lookupA_setAssoc_self c "references" (buildRefs results),
    fun k hk => lookupA_setAssoc_ne c "references" k (buildRefs results) fun e => hk e.symm⟩
  rw [retrieveRun]
  simp only [hlen, if_pos]
  rw [if_neg (by omega)]

/-- C8 witness: one document written into an empty context; the key holds
exactly that retrieval's references, and an unrelated key is untouched. -/
theorem references_set_amended_witness :
    lookupA (setAssoc ([("other", [])] : Ctx) "references" (buildRefs [docOf "A"]))
      "references" = some (buildRefs [docOf "A"]) ∧
    lookupA (setAssoc ([("other", [])] : Ctx) "references" (buildRefs [docOf "A"])) "other" =
      lookupA ([("other", [])] : Ctx) "other" :=
  ⟨(references_set_amended [docOf "A"] [("other", [])] (by simp)).2.1,
   (references_set_amended [docOf "A"] [("other", [])] (by simp)).2.2 "other" (by decide)⟩

/-! ## Chunk size invariants (claim C2) -/

/-- C2 counterexample.  With `maxSize = 10`, `minSize = 4`:
`cexText1` produces chunks `["a", "bbbbbbbbbbbb"]`, whose undersized
`"a"` is the **first** chunk, not the last, and the input is not a single
chunk — refuting "every chunk except possibly the last is ≥ minSize".
`cexText2` produces the single chunk `"aaaaaaaaa\n\nccc"` of length
14 > maxSize although every paragraph (9 and 3 chars) fits `maxSize` —
refuting "no chunk exceeds maxSize unless a single paragraph alone
exceeds it". -/
theorem semanticChunk_size_counterexample :
    semanticChunk cexText1 10 4 = [['a'], List.replicate 12 'b'] ∧
    (['a'] : List Char).length < 4 ∧
    semanticChunk cexText2 10 4 = [List.replicate 9 'a' ++ sep2 ++ List.replicate 3 'c'] ∧
    10 < (List.replicate 9 'a' ++ sep2 ++ List.replicate 3 'c').length ∧
    splitParas cexText2 = [List.replicate 9 'a', List.replicate 3 'c'] ∧
    (List.replicate 9 'a').length ≤ 10 ∧ (List.replicate 3 'c').length ≤ 10 := by
  decide

theorem jsTrim_length_le (s : List Char) : (jsTrim s).length ≤ s.length := by
  have h1 : (s.dropWhile isJsSpace).length ≤ s.length := (List.dropWhile_sublist _).length_le
  have h2 : ((s.dropWhile isJsSpace).reverse.dropWhile isJsSpace).length ≤
      (s.dropWhile isJsSpace).reverse.length := (List.dropWhile_sublist _).length_le
  simp only [jsTrim, List.length_reverse] at *
  omega

theorem appendToLast_all_ge (minSize : Nat) (c : List Char) :
    ∀ (z : List Char) (zs : List (List Char)),
      (∀ x ∈ z :: zs, minSize ≤ x.length) →
      ∀ x ∈ appendToLast (z :: zs) c, minSize ≤ x.length := by
  intro z zs
  induction zs generalizing z with
  | nil =>
      intro h x hx
      simp only [appendToLast, List.mem_singleton] at hx
      subst hx
      have := h z (List.mem_cons_self _ _)
      simp only [List.length_append]
      omega
  | cons y ys ih =>
      intro h x hx
      simp only [appendToLast, List.mem_cons] at hx
      rcases hx with rfl | hx
      · exact h x (List.mem_cons_self _ _)
      · exact ih y (fun w hw => h w (List.mem_cons_of_mem _ hw)) x hx

theorem appendToLast_drop_one_ge (minSize : Nat) (c : List Char) (z : List Char)
    (zs : List (List Char)) (h : ∀ x ∈ (z :: zs).drop 1, minSize ≤ x.length) :
    ∀ x ∈ (appendToLast (z :: zs) c).drop 1, minSize ≤ x.length := by
  cases zs with
  | nil => simp [appendToLast]
  | cons y ys =>
      simp only [appendToLast, List.drop_succ_cons, List.drop_zero] at *
      exact appendToLast_all_ge minSize c y ys h

theorem mergeSmall_drop_one_ge (minSize : Nat) :
    ∀ (cs m : List (List Char)), (∀ x ∈ m.drop 1, minSize ≤ x.length) →
      ∀ x ∈ (mergeSmall minSize cs m).drop 1, minSize ≤ x.length := by
  intro cs
  induction cs with
  | nil => intro m h; exact h
  | cons c cs ih =>
      intro m h
      rw [mergeSmall]
      by_cases hg : c.length < minSize ∧ 0 < m.length
      · rw [if_pos hg]
        obtain ⟨z, zs, rfl⟩ : ∃ z zs, m = z :: zs := by
          cases m with
          | nil => simp at hg
          | cons z zs => exact ⟨z, zs, rfl⟩
        exact ih _ (appendToLast_drop_one_ge minSize c z zs h)
      · rw [if_neg hg]
        apply ih
        intro x hx
        cases m with
        | nil => simp at hx
        | cons z zs =>
            have hc : minSize ≤ c.length := by
              rcases Decidable.not_and_iff_or_not.mp hg with h1 | h2
              · omega
              · simp at h2
            simp only [List.cons_append, List.drop_succ_cons, List.drop_zero] at hx h
            rcases List.mem_append.mp hx with hx | hx
            · exact h x hx
            · rw [List.mem_singleton.mp hx]; exact hc

theorem greedyChunks_le_max (maxSize : Nat) :
    ∀ (ps : List (List Char)) (cur : List Char) (chunks : List (List Char)),
      (∀ p ∈ ps, p.length ≤ maxSize) → cur.length ≤ maxSize →
      (∀ c ∈ chunks, c.length ≤ maxSize) →
      ∀ c ∈ greedyChunks maxSize ps cur chunks, c.length ≤ maxSize := by
  intro ps
  induction ps with
  | nil =>
      intro cur chunks _ hcur hchunks c hc
      rw [greedyChunks] at hc
      by_cases ht : 0 < (jsTrim cur).length
      · rw [if_pos ht] at hc
        rcases List.mem_append.mp hc with hc | hc
        · exact hchunks c hc
        · rw [List.mem_singleton.mp hc]
          exact le_trans (jsTrim_length_le cur) hcur
      · rw [if_neg ht] at hc
        exact hchunks c hc
  | cons p ps ih =>
      intro cur chunks hps hcur hchunks c hc
      have hp : p.length ≤ maxSize := hps p (List.mem_cons_self _ _)
      have hps' : ∀ q ∈ ps, q.length ≤ maxSize := fun q hq => hps q (List.mem_cons_of_mem _ hq)
      rw [greedyChunks] at hc
      by_cases hg : (cur ++ sep2 ++ p).length > maxSize ∧ 0 < cur.length
      · rw [if_pos hg] at hc
        refine ih p (chunks ++ [jsTrim cur]) hps' hp ?_ c hc
        intro x hx
        rcases List.mem_append.mp hx with hx | hx
        · exact hchunks x hx
        · rw [List.mem_singleton.mp hx]
          exact le_trans (jsTrim_length_le cur) hcur
      · rw [if_neg hg] at hc
        by_cases hemp : cur.isEmpty
        · rw [if_pos hemp] at hc
          exact ih p chunks hps' hp hchunks c hc
        · rw [if_neg hemp] at hc
          have hlen : (cur ++ sep2 ++ p).length ≤ maxSize := by
            rcases Decidable.not_and_iff_or_not.mp hg with h1 | h2
            · omega
            · exfalso
              apply h2
              cases cur with
              | nil => simp [List.isEmpty] at hemp
              | cons a l => simp
          exact ih (cur ++ sep2 ++ p) chunks hps' hlen hchunks c hc

theorem mergeSmall_head_prefix (minSize : Nat) :
    ∀ (cs : List (List Char)) (x u : List Char) (mr : List (List Char)),
      ∃ t rest, mergeSmall minSize cs ((x ++ u) :: mr) = (x ++ t) :: rest := by
  intro cs
  induction cs with
  | nil => intro x u mr; exact ⟨u, mr, rfl⟩
  | cons c cs ih =>
      intro x u mr
      rw [mergeSmall]
      by_cases hg : c.length < minSize ∧ 0 < ((x ++ u) :: mr).length
      · rw [if_pos hg]
        cases mr with
        | nil =>
            have he : appendToLast [x ++ u] c = [(x ++ (u ++ sep2 ++ c))] := by
              simp [appendToLast]
            rw [he]
            exact ih x (u ++ sep2 ++ c) []
        | cons y ys =>
            have he : appendToLast ((x ++ u) :: y :: ys) c =
                (x ++ u) :: appendToLast (y :: ys) c := rfl
            rw [he]
            exact ih x u (appendToLast (y :: ys) c)
      · rw [if_neg hg]
        have he : ((x ++ u) :: mr) ++ [c] = (x ++ u) :: (mr ++ [c]) := rfl
        rw [he]
        exact ih x u (mr ++ [c])

/-- C2 (amended).  For every text and every `maxSize`/`minSize`:
(1) every chunk emitted by `semanticChunk` except possibly the **first**
(not the last, as claimed) has length ≥ `minSize`;
(2) no chunk of the greedy pass exceeds `maxSize` unless a single
paragraph alone does — but only **before** the merge pass, which can push
the final merged chunk past `maxSize` (see the counterexample);
(3) an undersized chunk is merged only into the previous emitted chunk,
never into the next: the first greedy chunk always remains the prefix of
the first emitted chunk. -/
theorem semanticChunk_size_amended (text : List Char) (maxSize minSize : Nat) :
    (∀ c ∈ (semanticChunk text maxSize minSize).drop 1, minSize ≤ c.length) ∧
    ((∀ p ∈ splitParas text, p.length ≤ maxSize) →
      ∀ c ∈ greedyPass text maxSize, c.length ≤ maxSize) ∧
    (∀ g gs, greedyPass text maxSize = g :: gs →
      ∃ t rest, semanticChunk text maxSize minSize = (g ++ t) :: rest) := by
  refine ⟨?_, ?_, ?_⟩
  · exact mergeSmall_drop_one_ge minSize (greedyPass text maxSize) [] (by simp)
  · intro hps
    exact greedyChunks_le_max maxSize (splitParas text) [] [] hps (by simp) (by simp)
  · intro g gs hg
    rw [semanticChunk, hg, mergeSmall]
    rw [if_neg (by simp)]
    have he : ([] : List (List Char)) ++ [g] = [g ++ []] := by simp
    rw [he]
    exact mergeSmall_head_prefix minSize gs g [] []

/-- C2 witness: `"aaaa\n\nbbbb"` with `maxSize = minSize = 4` chunks to
`["aaaa", "bbbb"]`; the second chunk meets `minSize` and the first greedy
chunk meets `maxSize`. -/
theorem semanticChunk_size_amended_witness :
    4 ≤ (['b', 'b', 'b', 'b'] : List Char).length ∧
    (['a', 'a', 'a', 'a'] : List Char).length ≤ 4 :=
  ⟨(semanticChunk_size_amended ['a', 'a', 'a', 'a', '\n', '\n', 'b', 'b', 'b', 'b'] 4 4).1
      ['b', 'b', 'b', 'b'] (by decide),
   (semanticChunk_size_amended ['a', 'a', 'a', 'a', '\n', '\n', 'b', 'b', 'b', 'b'] 4 4).2.1
      (by decide) ['a', 'a', 'a', 'a'] (by decide)⟩

/-! ## Chunk reconstruction (claim C3)

The split/greedy/merge pipeline loses characters in general (trimming,
separator normalisation); reconstruction holds on texts whose paragraphs
are `goodPara` and whose separators are literally `"\n\n"`. -/

theorem splitAux_consume (p : List Char) (hnl : ∀ c ∈ p, c ≠ '\n') :
    ∀ (rest curRev : List Char) (acc : List (List Char)),
      splitAux (p ++ rest) curRev ScanSt.norm acc =
        splitAux rest (p.reverse ++ curRev) ScanSt.norm acc := by
  induction p with
  | nil => intro rest curRev acc; rfl
  | cons c p' ih =>
      intro rest curRev acc
      have hc : c ≠ '\n' := hnl c (List.mem_cons_self _ _)
      have hnl' : ∀ x ∈ p', x ≠ '\n' := fun x hx => hnl x (List.mem_cons_of_mem _ hx)
      show splitAux (c :: (p' ++ rest)) curRev ScanSt.norm acc = _
      rw [splitAux, if_neg hc, ih hnl' rest (c :: curRev) acc,
        List.reverse_cons, List.append_assoc, List.singleton_append]

theorem splitAux_cross :
    ∀ (rest : List (List Char)),
      (∀ r ∈ rest, r ≠ [] ∧ isJsSpace (r.headD 'a') = false ∧ ∀ c ∈ r, c ≠ '\n') →
      ∀ (q curRev : List Char) (acc : List (List Char)), (∀ c ∈ q, c ≠ '\n') →
        splitAux (q ++ flatT rest) curRev ScanSt.norm acc =
          acc ++ ((curRev.reverse ++ q) :: rest) := by
  intro rest
  induction rest with
  | nil =>
      intro _ q curRev acc hq
      rw [flatT, splitAux_consume q hq [] curRev acc, splitAux,
        List.reverse_append, List.reverse_reverse]
  | cons r rs ih =>
      intro hr q curRev acc hq
      obtain ⟨hrne, hrh, hrnl⟩ := hr r (List.mem_cons_self _ _)
      obtain ⟨c₀, r₀, rfl⟩ : ∃ c₀ r₀, r = c₀ :: r₀ := by
        cases r with
        | nil => exact absurd rfl hrne
        | cons a b => exact ⟨a, b, rfl⟩
      have hc₀nl : c₀ ≠ '\n' := hrnl c₀ (List.mem_cons_self _ _)
      have hc₀sp : isJsSpace c₀ = false := hrh
      have hstep : splitAux (q ++ flatT ((c₀ :: r₀) :: rs)) curRev ScanSt.norm acc =
          splitAux (r₀ ++ flatT rs) [c₀] ScanSt.norm
            (acc ++ [(q.reverse ++ curRev).reverse]) := by
        rw [flatT]
        have hshape : q ++ (sep2 ++ (c₀ :: r₀) ++ flatT rs) =
            q ++ ('\n' :: '\n' :: (c₀ :: (r₀ ++ flatT rs))) := by
          simp [sep2]
        rw [show sep2 ++ (c₀ :: r₀) ++ flatT rs =
            '\n' :: '\n' :: (c₀ :: (r₀ ++ flatT rs)) by simp [sep2],
          splitAux_consume q hq _ curRev acc]
        rw [splitAux, if_pos rfl]
        rw [splitAux, if_pos rfl]
        rw [splitAux, if_neg hc₀nl]
        rw [if_neg (by simp [hc₀sp])]
        rw [if_pos rfl]
      rw [hstep, ih (fun w hw => hr w (List.mem_cons_of_mem _ hw)) r₀ [c₀]
        (acc ++ [(q.reverse ++ curRev).reverse])
        (fun x hx => hrnl x (List.mem_cons_of_mem _ hx))]
      rw [List.reverse_append, List.reverse_reverse, List.append_assoc,
        List.singleton_append]
      rfl

theorem joinSep_eq_flatT (p : List Char) (rest : List (List Char)) :
    joinSep (p :: rest) = p ++ flatT rest := by
  induction rest generalizing p with
  | nil => rw [joinSep, flatT, List.append_nil]
  | cons r rs ih =>
      rw [joinSep, ih r, flatT]
      simp [List.append_assoc]

theorem splitParas_joinSep (ps : List (List Char)) (hne : ps ≠ [])
    (hgood : ∀ p ∈ ps, goodPara p) : splitParas (joinSep ps) = ps := by
  obtain ⟨p, rest, rfl⟩ : ∃ p rest, ps = p :: rest := by
    cases ps with
    | nil => exact absurd rfl hne
    | cons a b => exact ⟨a, b, rfl⟩
  rw [splitParas, joinSep_eq_flatT]
  rw [splitAux_cross rest
    (fun r hr => by
      obtain ⟨h1, h2, h3, _⟩ := hgood r (List.mem_cons_of_mem _ hr)
      exact ⟨h1, h3, h2⟩)
    p [] []
    (hgood p (List.mem_cons_self _ _)).2.1]
  simp

theorem getLastD_of_ne_nil (b : List Char) (hb : b ≠ []) (d d' : Char) :
    b.getLastD d = b.getLastD d' := by
  cases b with
  | nil => exact absurd rfl hb
  | cons y ys => rw [List.getLastD_cons, List.getLastD_cons]

theorem getLastD_append_right (a b : List Char) (hb : b ≠ []) (d : Char) :
    (a ++ b).getLastD d = b.getLastD d := by
  induction a generalizing d with
  | nil => rfl
  | cons x t ih =>
      rw [List.cons_append, List.getLastD_cons, ih x, getLastD_of_ne_nil b hb x d]

theorem headD_append_left (a b : List Char) (ha : a ≠ []) (d : Char) :
    (a ++ b).headD d = a.headD d := by
  cases a with
  | nil => exact absurd rfl ha
  | cons x t => rfl

theorem headD_reverse (l : List Char) (d : Char) : l.reverse.headD d = l.getLastD d := by
  rcases List.eq_nil_or_concat l with rfl | ⟨l', b, rfl⟩
  · rfl
  · rw [List.concat_eq_append, List.reverse_append,
      getLastD_append_right l' [b] (by simp) d]
    simp [List.getLastD_cons]

theorem jsTrim_eq_self (s : List Char) (hs : trimSafe s) : jsTrim s = s := by
  obtain ⟨hne, hh, hl⟩ := hs
  have h1 : s.dropWhile isJsSpace = s := by
    cases s with
    | nil => rfl
    | cons a t =>
        apply List.dropWhile_cons_of_neg
        simp only [List.headD_cons] at hh
        simp [hh]
  rw [jsTrim, h1]
  have h2 : s.reverse.dropWhile isJsSpace = s.reverse := by
    cases hrev : s.reverse with
    | nil => rfl
    | cons a t =>
        apply List.dropWhile_cons_of_neg
        have h3 : s.getLastD 'a' = a := by
          rw [← headD_reverse s 'a', hrev]
          rfl
        rw [← h3, hl]
        simp
  rw [h2, List.reverse_reverse]

theorem trimSafe_append_sep (cur p : List Char) (hc : trimSafe cur) (hp : trimSafe p) :
    trimSafe (cur ++ sep2 ++ p) := by
  obtain ⟨hcne, hch, _⟩ := hc
  obtain ⟨hpne, _, hpl⟩ := hp
  refine ⟨by simp [hcne], ?_, ?_⟩
  · rw [List.append_assoc, headD_append_left cur _ hcne]
    exact hch
  · rw [getLastD_append_right _ p hpne]
    exact hpl

theorem joinSep_cons_ne (x : List Char) (l : List (List Char)) (hl : l ≠ []) :
    joinSep (x :: l) = x ++ sep2 ++ joinSep l := by
  cases l with
  | nil => exact absurd rfl hl
  | cons y ys => rfl

theorem joinSep_concat (l : List (List Char)) (p : List Char) (hl : l ≠ []) :
    joinSep (l ++ [p]) = joinSep l ++ sep2 ++ p := by
  induction l with
  | nil => exact absurd rfl hl
  | cons x xs ih =>
      cases xs with
      | nil => rfl
      | cons y ys =>
          rw [List.cons_append, joinSep_cons_ne x ((y :: ys) ++ [p]) (by simp),
            ih (by simp), joinSep_cons_ne x (y :: ys) (by simp)]
          simp [List.append_assoc]

theorem joinSep_last_ext (l : List (List Char)) (a b : List Char) :
    joinSep (l ++ [a ++ b]) = joinSep (l ++ [a]) ++ b := by
  induction l with
  | nil => rfl
  | cons x xs ih =>
      cases xs with
      | nil =>
          show joinSep [x, a ++ b] = joinSep [x, a] ++ b
          rw [joinSep, joinSep, joinSep, joinSep]
          simp [List.append_assoc]
      | cons y ys =>
          simp only [List.cons_append] at ih ⊢
          rw [joinSep_cons_ne x (y :: (ys ++ [a ++ b])) (by simp), ih,
            joinSep_cons_ne x (y :: (ys ++ [a])) (by simp)]
          simp [List.append_assoc]

theorem isEmpty_false_of_ne_nil (l : List Char) (h : l ≠ []) : l.isEmpty = false := by
  cases l with
  | nil => exact absurd rfl h
  | cons a t => rfl

theorem greedy_flat (maxSize : Nat) :
    ∀ (ps : List (List Char)) (cur : List Char) (chunks : List (List Char)),
      (∀ p ∈ ps, trimSafe p) → trimSafe cur →
      joinSep (greedyChunks maxSize ps cur chunks) = joinSep (chunks ++ [cur]) ++ flatT ps := by
  intro ps
  induction ps with
  | nil =>
      intro cur chunks _ hcur
      rw [greedyChunks, jsTrim_eq_self cur hcur, if_pos (by
        cases cur with
        | nil => exact absurd rfl hcur.1
        | cons a t => simp), flatT, List.append_nil]
  | cons p ps ih =>
      intro cur chunks hps hcur
      have hp : trimSafe p := hps p (List.mem_cons_self _ _)
      have hps' : ∀ q ∈ ps, trimSafe q := fun q hq => hps q (List.mem_cons_of_mem _ hq)
      rw [greedyChunks]
      by_cases hg : (cur ++ sep2 ++ p).length > maxSize ∧ 0 < cur.length
      · rw [if_pos hg, jsTrim_eq_self cur hcur, ih p (chunks ++ [cur]) hps' hp,
          joinSep_concat (chunks ++ [cur]) p (by simp), flatT]
        simp [List.append_assoc]
      · rw [if_neg hg, if_neg (isEmpty_false_of_ne_nil cur hcur.1 ▸ by simp :
          ¬cur.isEmpty = true)]
        rw [ih (cur ++ sep2 ++ p) chunks hps' (trimSafe_append_sep cur p hcur hp)]
        have hsplit : cur ++ sep2 ++ p = cur ++ (sep2 ++ p) := by
          rw [List.append_assoc]
        rw [hsplit, joinSep_last_ext chunks cur (sep2 ++ p), flatT]
        simp [List.append_assoc]

theorem joinSep_appendToLast (m : List (List Char)) (c : List Char) (hm : m ≠ []) :
    joinSep (appendToLast m c) = joinSep m ++ sep2 ++ c := by
  induction m with
  | nil => exact absurd rfl hm
  | cons x xs ih =>
      cases xs with
      | nil => rfl
      | cons y ys =>
          have hne : appendToLast (y :: ys) c ≠ [] := by
            cases ys <;> simp [appendToLast]
          rw [appendToLast, joinSep_cons_ne x _ hne, ih (by simp),
            joinSep_cons_ne x (y :: ys) (by simp)]
          simp [List.append_assoc]

theorem mergeSmall_flat_aux (minSize : Nat) :
    ∀ (cs m : List (List Char)), m ≠ [] →
      joinSep (mergeSmall minSize cs m) = joinSep m ++ flatT cs := by
  intro cs
  induction cs with
  | nil => intro m hm; rw [mergeSmall, flatT, List.append_nil]
  | cons c cs ih =>
      intro m hm
      rw [mergeSmall]
      by_cases hg : c.length < minSize ∧ 0 < m.length
      · rw [if_pos hg, ih (appendToLast m c) (by
          cases m with
          | nil => exact absurd rfl hm
          | cons x xs => cases xs <;> simp [appendToLast]),
          joinSep_appendToLast m c hm, flatT]
        simp [List.append_assoc]
      · rw [if_neg hg, ih (m ++ [c]) (by simp), joinSep_concat m c hm, flatT]
        simp [List.append_assoc]

/-- C3 counterexample: the text `"a "` chunks to `["a"]` — the trailing
blank is trimmed away, so no concatenation of the chunks (there are no
interior separators to restore) reproduces the original text. -/
theorem semanticChunk_reconstruction_counterexample :
    semanticChunk cexText3 1200 300 = [['a']] ∧ joinSep [['a']] ≠ cexText3 := by
  decide

/-- C3 (amended).  Reconstruction holds for texts built by joining a
nonempty list of well-formed paragraphs (nonempty, newline-free, not
starting or ending with whitespace) with the `"\n\n"` separator: joining
the emitted chunks with the same separator reproduces the text exactly.
For general texts, trimming and separator normalisation lose characters
(see the counterexample). -/
theorem semanticChunk_reconstruction_amended (maxSize minSize : Nat)
    (ps : List (List Char)) (hne : ps ≠ []) (hgood : ∀ p ∈ ps, goodPara p) :
    joinSep (semanticChunk (joinSep ps) maxSize minSize) = joinSep ps := by
  obtain ⟨p, rest, rfl⟩ : ∃ p rest, ps = p :: rest := by
    cases ps with
    | nil => exact absurd rfl hne
    | cons a b => exact ⟨a, b, rfl⟩
  have htrim : ∀ q ∈ p :: rest, trimSafe q := by
    intro q hq
    obtain ⟨h1, _, h3, h4⟩ := hgood q hq
    exact ⟨h1, h3, h4⟩
  have hsplit : splitParas (joinSep (p :: rest)) = p :: rest :=
    splitParas_joinSep (p :: rest) hne hgood
  rw [semanticChunk, greedyPass, hsplit]
  have hstep : greedyChunks maxSize (p :: rest) [] [] = greedyChunks maxSize rest p [] := by
    rw [greedyChunks, if_neg (by simp)]
    rfl
  rw [hstep]
  have hflat : joinSep (greedyChunks maxSize rest p []) = p ++ flatT rest := by
    rw [greedy_flat maxSize rest p []
      (fun q hq => htrim q (List.mem_cons_of_mem _ hq))
      (htrim p (List.mem_cons_self _ _))]
    rfl
  obtain ⟨g, gs, hG⟩ : ∃ g gs, greedyChunks maxSize rest p [] = g :: gs := by
    cases hGnil : greedyChunks maxSize rest p [] with
    | nil =>
        exfalso
        rw [hGnil] at hflat
        have hpne : p ≠ [] := (htrim p (List.mem_cons_self _ _)).1
        cases p with
        | nil => exact absurd rfl hpne
        | cons a t => exact absurd hflat.symm (by simp [joinSep])
    | cons g gs => exact ⟨g, gs, rfl⟩
  rw [hG, mergeSmall, if_neg (by simp)]
  have hm : ([] : List (List Char)) ++ [g] = [g] := rfl
  rw [hm, mergeSmall_flat_aux minSize gs [g] (by simp)]
  rw [show joinSep [g] = g from rfl, ← joinSep_eq_flatT g gs, ← hG, hflat,
    joinSep_eq_flatT]

/-- C3 witness: the text `"a\n\nb"` (paragraphs `["a", "b"]`) is
reproduced exactly by joining its chunks with `"\n\n"`. -/
theorem semanticChunk_reconstruction_amended_witness :
    joinSep (semanticChunk (joinSep [['a'], ['b']]) 1200 300) = joinSep [['a'], ['b']] :=
  semanticChunk_reconstruction_amended 1200 300 [['a'], ['b']] (by simp)
    (by
      intro p hp
      rcases List.mem_cons.mp hp with rfl | hp
      · exact ⟨by simp, by decide, by decide, by decide⟩
      · rcases List.mem_cons.mp hp with rfl | hp
        · exact ⟨by simp, by decide, by decide, by decide⟩
        · simp at hp)
